import Mathlib

/-!
Verification of the chunking engine and retrieval/rerank pipeline of the
story-RAG system (`tools/rag_base.py`, `tools/story_rag_system.py`).

The Python code is shallowly embedded: text is `List Char`, Python's
`str.split` / `str.strip` / `re` patterns used by the code are modelled by
executable functions over `List Char`, float scores are modelled by `ℚ`,
exceptions by `Except`, and the external collaborators (embedding model,
reranker, vector store, `hashlib.md5`) are parameters of the translated
functions.
-/

set_option maxRecDepth 10000

abbrev Chars := List Char

/-- Whitespace as matched by the Python regex class `\s` (ASCII part) and
stripped by `str.strip`. -/
def isWS (c : Char) : Bool :=
  c == ' ' || c == '\t' || c == '\n' || c == '\r' || c == '\x0b' || c == '\x0c'

/-- Python `str.strip()`: drop whitespace from both ends. -/
def pyStrip (s : Chars) : Chars :=
  ((s.dropWhile isWS).reverse.dropWhile isWS).reverse

/-- Python `content.split('\n')`: split at every newline, keeping empty parts. -/
def pyLines : Chars → List Chars
  | [] => [[]]
  | c :: rest =>
    let r := pyLines rest
    if c = '\n' then [] :: r else (c :: r.headD []) :: r.tail

/-- Python `'\n'.join(lines)`. -/
def joinNL : List Chars → Chars
  | [] => []
  | [l] => l
  | l :: l' :: ls => l ++ '\n' :: joinNL (l' :: ls)

/-- Python `s.count('\n')`. -/
def countNL (s : Chars) : Nat := s.count '\n'

/-- `needle` is a leading segment of `hay`. -/
def leadsWith : Chars → Chars → Bool
  | [], _ => true
  | _ :: _, [] => false
  | c :: ns, d :: hs => c == d && leadsWith ns hs

/-- Python `needle in hay` on strings: substring containment. -/
def hasSub (needle : Chars) : Chars → Bool
  | [] => needle.isEmpty
  | c :: hs => leadsWith needle (c :: hs) || hasSub needle hs

/-- Little-endian decimal digit list, driven by structural fuel so that the
kernel can evaluate it. -/
def natDigitsRevAux : Nat → Nat → List Nat
  | 0, _ => []
  | fuel+1, n => if n = 0 then [] else n % 10 :: natDigitsRevAux fuel (n / 10)

/-- Little-endian decimal digit list of `n` (empty for `0`). -/
def natDigitsRev (n : Nat) : List Nat := natDigitsRevAux n n

theorem natDigitsRevAux_zero : ∀ f, natDigitsRevAux f 0 = []
  | 0 => rfl
  | _+1 => rfl

theorem natDigitsRevAux_congr : ∀ (f f' n : Nat), n ≤ f → n ≤ f' →
    natDigitsRevAux f n = natDigitsRevAux f' n := by
  intro f
  induction f with
  | zero =>
    intro f' n hf _
    have : n = 0 := Nat.le_zero.mp hf
    rw [this, natDigitsRevAux_zero, natDigitsRevAux_zero]
  | succ g ih =>
    intro f' n hf hf'
    by_cases h0 : n = 0
    · rw [h0, natDigitsRevAux_zero, natDigitsRevAux_zero]
    · obtain ⟨g', rfl⟩ : ∃ g', f' = g' + 1 := by
        cases f' with
        | zero => omega
        | succ g' => exact ⟨g', rfl⟩
      show (if n = 0 then [] else n % 10 :: natDigitsRevAux g (n / 10)) =
        (if n = 0 then [] else n % 10 :: natDigitsRevAux g' (n / 10))
      simp only [h0, if_false]
      have hdiv : n / 10 ≤ g := by
        have := Nat.div_lt_self (Nat.pos_of_ne_zero h0) (by omega : 1 < 10)
        omega
      have hdiv' : n / 10 ≤ g' := by
        have := Nat.div_lt_self (Nat.pos_of_ne_zero h0) (by omega : 1 < 10)
        omega
      rw [ih g' (n / 10) hdiv hdiv']

theorem natDigitsRev_eq (n : Nat) :
    natDigitsRev n = if n = 0 then [] else n % 10 :: natDigitsRev (n / 10) := by
  unfold natDigitsRev
  match n with
  | 0 => rfl
  | m + 1 =>
    show (if m + 1 = 0 then [] else (m + 1) % 10 :: natDigitsRevAux m ((m + 1) / 10)) = _
    simp only [Nat.succ_ne_zero, if_false]
    have hdiv : (m + 1) / 10 ≤ m := by
      have := Nat.div_lt_self (Nat.succ_pos m) (by omega : 1 < 10)
      omega
    rw [natDigitsRevAux_congr m ((m + 1) / 10) ((m + 1) / 10) hdiv (Nat.le_refl _)]

/-- Python `str(n)` for a non-negative integer: decimal digits, `"0"` for zero. -/
def pyNatStr (n : Nat) : Chars :=
  if n = 0 then ['0'] else (natDigitsRev n).reverse.map Nat.digitChar

/-- Value of a little-endian decimal digit list. -/
def valOfDigits : List Nat → Nat
  | [] => 0
  | d :: ds => d + 10 * valOfDigits ds

/-- Digit character back to its value. -/
def charVal (c : Char) : Nat := c.toNat - 48

theorem valOfDigits_natDigitsRev (n : Nat) : valOfDigits (natDigitsRev n) = n := by
  induction n using Nat.strong_induction_on with
  | _ n ih =>
    rw [natDigitsRev_eq]
    by_cases h : n = 0
    · simp [h, valOfDigits]
    · simp only [h, if_false, valOfDigits]
      rw [ih (n / 10) (Nat.div_lt_self (Nat.pos_of_ne_zero h) (by omega))]
      omega

theorem natDigitsRev_injective : Function.Injective natDigitsRev := by
  intro m n h
  have hm := valOfDigits_natDigitsRev m
  have hn := valOfDigits_natDigitsRev n
  rw [h] at hm
  omega

theorem natDigitsRev_lt_ten (n : Nat) : ∀ d ∈ natDigitsRev n, d < 10 := by
  induction n using Nat.strong_induction_on with
  | _ n ih =>
    rw [natDigitsRev_eq]
    by_cases h : n = 0
    · simp [h]
    · simp only [h, if_false, List.mem_cons]
      rintro d (rfl | hd)
      · omega
      · exact ih (n / 10) (Nat.div_lt_self (Nat.pos_of_ne_zero h) (by omega)) d hd

theorem charVal_digitChar {d : Nat} (h : d < 10) : charVal (Nat.digitChar d) = d := by
  interval_cases d <;> rfl

theorem map_digitChar_inj : ∀ {l1 l2 : List Nat}, (∀ d ∈ l1, d < 10) → (∀ d ∈ l2, d < 10) →
    l1.map Nat.digitChar = l2.map Nat.digitChar → l1 = l2
  | [], [], _, _, _ => rfl
  | [], _ :: _, _, _, h => by simp at h
  | _ :: _, [], _, _, h => by simp at h
  | d :: l1, d' :: l2, h1, h2, h => by
    simp only [List.map_cons, List.cons.injEq] at h
    have hd : d = d' := by
      have := congrArg charVal h.1
      rwa [charVal_digitChar (h1 d (by simp)), charVal_digitChar (h2 d' (by simp))] at this
    have hl := map_digitChar_inj (fun d hd => h1 d (by simp [hd]))
      (fun d hd => h2 d (by simp [hd])) h.2
    rw [hd, hl]

theorem pyNatStr_injective : Function.Injective pyNatStr := by
  intro m n h
  unfold pyNatStr at h
  by_cases hm : m = 0 <;> by_cases hn : n = 0
  · omega
  · exfalso
    simp only [hm, if_true, hn, if_false] at h
    have h0 : ([0] : List Nat).map Nat.digitChar = ((natDigitsRev n).reverse).map Nat.digitChar := by
      simpa using h
    have := map_digitChar_inj (by simp) (by
      intro d hd
      exact natDigitsRev_lt_ten n d (List.mem_reverse.mp hd)) h0
    have hrev : natDigitsRev n = [0] := by
      have := congrArg List.reverse this
      simpa using this.symm
    have := valOfDigits_natDigitsRev n
    rw [hrev] at this
    simp [valOfDigits] at this
    omega
  · exfalso
    simp only [hm, if_false, hn, if_true] at h
    have h0 : ((natDigitsRev m).reverse).map Nat.digitChar = ([0] : List Nat).map Nat.digitChar := by
      simpa using h
    have := map_digitChar_inj (by
      intro d hd
      exact natDigitsRev_lt_ten m d (List.mem_reverse.mp hd)) (by simp) h0
    have hrev : natDigitsRev m = [0] := by
      have := congrArg List.reverse this
      simpa using this
    have := valOfDigits_natDigitsRev m
    rw [hrev] at this
    simp [valOfDigits] at this
    omega
  · simp only [hm, if_false, hn, if_false] at h
    apply natDigitsRev_injective
    have := @map_digitChar_inj (natDigitsRev m).reverse (natDigitsRev n).reverse
      (fun d hd => natDigitsRev_lt_ten m d (List.mem_reverse.mp hd))
      (fun d hd => natDigitsRev_lt_ten n d (List.mem_reverse.mp hd)) h
    have := congrArg List.reverse this
    simpa using this

/-! ### ChunkID (`BaseRAGSystem._generate_chunk_id`)

The Python code hashes the f-string `"{file_path}_{index}_{title}"` with
`hashlib.md5` (an external library); the hash is a parameter here. -/

/-- The string that `_generate_chunk_id` feeds into the hash:
`f"{file_path}_{index}_{title}"`. -/
def chunkKey (fp : Chars) (idx : Nat) (title : Chars) : Chars :=
  fp ++ ('_' :: pyNatStr idx) ++ ('_' :: title)

/-- `BaseRAGSystem._generate_chunk_id`, with `hashlib.md5(...).hexdigest()`
abstracted as the `hash` parameter. -/
def generate_chunk_id (hash : Chars → Chars) (fp : Chars) (idx : Nat) (title : Chars) : Chars :=
  hash (chunkKey fp idx title)

/-- A stand-in hash used to instantiate counterexamples that hold for every
hash function. -/
def idHash : Chars → Chars := fun s => s

theorem chunkKey_title_ne (fp : Chars) (idx : Nat) {t t' : Chars} (h : t ≠ t') :
    chunkKey fp idx t ≠ chunkKey fp idx t' := by
  intro he
  apply h
  unfold chunkKey at he
  have h1 := List.append_cancel_left he
  simpa using h1

theorem chunkKey_idx_ne (fp : Chars) (t : Chars) {idx idx' : Nat} (h : idx ≠ idx') :
    chunkKey fp idx t ≠ chunkKey fp idx' t := by
  intro he
  apply h
  unfold chunkKey at he
  have h1 := List.append_cancel_right he
  have h2 := List.append_cancel_left h1
  exact pyNatStr_injective (by simpa using h2)

theorem chunkKey_fp_ne (idx : Nat) (t : Chars) {fp fp' : Chars} (h : fp ≠ fp') :
    chunkKey fp idx t ≠ chunkKey fp' idx t := by
  intro he
  apply h
  unfold chunkKey at he
  exact List.append_cancel_right (List.append_cancel_right he)

/-! ### Search results and the retrieve-and-rerank pipeline

`SR` models the result dict flowing through `BaseRAGSystem`: optional score
keys model keys that may be absent from the dict.  The `metadata` mapping is
projected to its `file_path` entry, the only metadata the search pipeline
reads.  Float scores are modelled by `ℚ`. -/

structure SR where
  content : Chars
  file_path : Chars
  distance : Option ℚ := none
  original_distance : Option ℚ := none
  rerank_score : Option ℚ := none
  final_score : Option ℚ := none
deriving DecidableEq

/-- Configuration slice read by `search_with_rerank`:
`search.enable_rerank`, `models.reranker.max_results`,
`models.reranker.score_threshold`. -/
structure RerankConfig where
  enableRerank : Bool
  maxResults : Nat
  scoreThreshold : ℚ
deriving DecidableEq

/-- The sort key `x['rerank_score']` used by `search_with_rerank`; every
element being sorted carries the key, so the default is never read. -/
def rerankKey (r : SR) : ℚ := r.rerank_score.getD 0

/-- Stable descending insertion: place `x` before the first element whose key
is `≤` the key of `x`. -/
def insertDesc (x : SR) : List SR → List SR
  | [] => [x]
  | y :: ys => if rerankKey x < rerankKey y then y :: insertDesc x ys else x :: y :: ys

/-- Python `list.sort(key=lambda x: x['rerank_score'], reverse=True)`:
a stable sort, descending by `rerank_score`, ties keeping list order. -/
def pySortDesc (l : List SR) : List SR := l.foldr insertDesc []

/-- Building one reranked result dict: `result.copy()` plus
`original_distance`, `rerank_score`, `final_score = rerank_score`. -/
def attachScore (c : SR) (s : ℚ) : SR :=
  { c with
    original_distance := some (c.distance.getD 0)
    rerank_score := some s
    final_score := some s }

/-- `BaseRAGSystem.search_with_rerank`.  The vector stage
(`_search_vector`, delegating to the embedding model and the Chroma
collection) and the reranker model call are collaborators that can raise;
both are passed in as `Except`-returning functions. -/
def search_with_rerank (cfg : RerankConfig) (vecSearch : Nat → Except Chars (List SR))
    (reranker : Chars → List Chars → Except Chars (List ℚ))
    (query : Chars) (topK : Nat) : Except Chars (List SR) :=
  let initialTopK := if cfg.enableRerank then min cfg.maxResults (max (topK * 2) 10) else topK
  match vecSearch initialTopK with
  | .error e => .error e
  | .ok initial =>
    if initial = [] ∨ cfg.enableRerank = false then .ok (initial.take topK)
    else
      match reranker query (initial.map (·.content)) with
      | .error e => .error e
      | .ok rerank_scores =>
        let reranked := (initial.zip rerank_scores).map (fun cs => attachScore cs.1 cs.2)
        let sorted := pySortDesc reranked
        let filtered := sorted.filter (fun r => decide (cfg.scoreThreshold ≤ rerankKey r))
        .ok (filtered.take topK)

/-- `StoryRAGSystem.search`: embed the query, query the vector store, format
the hits — all inside a `try` whose `except` prints and returns `[]`.  The
embedding model and the vector store are collaborator parameters; the store
is modelled as returning the formatted hit list. -/
def story_search (embed : Chars → Except Chars (List ℚ))
    (dbq : List ℚ → Nat → Option Chars → Except Chars (List SR))
    (query : Chars) (topK : Nat) (filterType : Option Chars) : List SR :=
  match embed query >>= fun e => dbq e topK filterType with
  | .ok v => v
  | .error _ => []

/-! ### Deduplication (`BaseRAGSystem._deduplicate_results`)

`hashlib.md5` on the content string is the `hash` parameter; `seen_ids` is
the list of hashes seen so far. -/

def dedupAux (hash : Chars → Chars) (seen : List Chars) : List SR → List SR
  | [] => []
  | r :: rest =>
    if hash r.content ∈ seen then dedupAux hash seen rest
    else r :: dedupAux hash (hash r.content :: seen) rest

/-- `BaseRAGSystem._deduplicate_results`. -/
def deduplicate_results (hash : Chars → Chars) (results : List SR) : List SR :=
  dedupAux hash [] results

/-! ### Character search (`BaseRAGSystem.search_character`) -/

/-- `BaseRAGSystem._get_character_variants`. -/
def get_character_variants (name : Chars) : List Chars :=
  if name = "小一".data ∨ name = "1号".data ∨ name = "林晚晚-1".data then
    ["小一".data, "林晚晚-1".data, "病娇".data, "收藏家".data, "恋爱游戏".data]
  else if name = "小二".data ∨ name = "2号".data ∨ name = "林晚晚-2".data then
    ["小二".data, "林晚晚-2".data, "吃货".data, "美食家".data, "消化器".data]
  else if name = "小七".data ∨ name = "7号".data ∨ name = "林晚晚-7".data then
    ["小七".data, "林晚晚-7".data, "数学家".data, "计算姬".data, "公式女王".data]
  else if name = "小二十一".data ∨ name = "21号".data ∨ name = "林晚晚-21".data then
    ["小二十一".data, "林晚晚-21".data, "二十一号".data, "幼态".data]
  else if name = "小三十五".data ∨ name = "35号".data ∨ name = "林晚晚-35".data then
    ["小三十五".data, "林晚晚-35".data, "三十五号".data, "律师".data]
  else if name = "小四十二".data ∨ name = "42号".data ∨ name = "林晚晚-42".data then
    ["小四十二".data, "林晚晚-42".data, "四十二号".data, "答案守护者".data]
  else [name]

def flatMapL (f : α → List β) : List α → List β
  | [] => []
  | a :: l => f a ++ flatMapL f l

/-- The sub-queries issued by `search_character` with variant expansion: for
each variant, the three query templates, in loop order. -/
def charQueries (name : Chars) : List Chars :=
  flatMapL (fun v =>
      [v ++ " 人格设定 性格特点".data, v ++ " 能力 出场".data, v ++ " 对话风格 台词".data])
    (get_character_variants name)

/-- `"人格图鉴" in result['metadata']['file_path']`. -/
def compendiumHit (r : SR) : Bool := hasSub "人格图鉴".data r.file_path

/-- `BaseRAGSystem.search_character`; `srch` is `self.search`, and
`expand` is the `search.character_search.expand_variants` configuration. -/
def search_character (srch : Chars → Nat → Option Chars → List SR)
    (hash : Chars → Chars) (expand : Bool) (name : Chars) (topK : Nat) : List SR :=
  if expand = false then srch (name ++ " 人格设定".data) topK (some "设定".data)
  else
    let all_results := flatMapL (fun q => srch q 3 (some "设定".data)) (charQueries name)
    let unique_results := deduplicate_results hash all_results
    let priority_results := unique_results.filter compendiumHit
    let other_results := unique_results.filter (fun r => !compendiumHit r)
    (priority_results ++ other_results).take topK

/-! ### Properties of the stable descending sort -/

theorem insertDesc_perm (x : SR) (l : List SR) : List.Perm (insertDesc x l) (x :: l) := by
  induction l with
  | nil => exact List.Perm.refl _
  | cons y ys ih =>
    rw [insertDesc]
    by_cases h : rerankKey x < rerankKey y
    · simp only [h, if_true]
      exact (ih.cons y).trans (List.Perm.swap x y ys)
    · simp only [h, if_false]
      exact List.Perm.refl _

theorem pySortDesc_perm (l : List SR) : List.Perm (pySortDesc l) l := by
  induction l with
  | nil => exact List.Perm.refl _
  | cons x xs ih =>
    have hstep : pySortDesc (x :: xs) = insertDesc x (pySortDesc xs) := rfl
    rw [hstep]
    exact (insertDesc_perm x (pySortDesc xs)).trans (ih.cons x)

theorem insertDesc_pairwise (x : SR) (l : List SR)
    (h : l.Pairwise (fun a b => rerankKey b ≤ rerankKey a)) :
    (insertDesc x l).Pairwise (fun a b => rerankKey b ≤ rerankKey a) := by
  induction l with
  | nil => simp [insertDesc]
  | cons y ys ih =>
    rw [insertDesc]
    rcases List.pairwise_cons.mp h with ⟨hy, hys⟩
    by_cases hlt : rerankKey x < rerankKey y
    · simp only [hlt, if_true]
      refine List.pairwise_cons.mpr ⟨?_, ih hys⟩
      intro z hz
      rcases List.mem_cons.mp ((insertDesc_perm x ys).mem_iff.mp hz) with hz | hz
      · rw [hz]; exact le_of_lt hlt
      · exact hy z hz
    · simp only [hlt, if_false]
      refine List.pairwise_cons.mpr ⟨?_, h⟩
      intro z hz
      rcases List.mem_cons.mp hz with hz | hz
      · rw [hz]; exact le_of_not_lt hlt
      · exact le_trans (hy z hz) (le_of_not_lt hlt)

theorem pySortDesc_pairwise (l : List SR) :
    (pySortDesc l).Pairwise (fun a b => rerankKey b ≤ rerankKey a) := by
  induction l with
  | nil => exact List.Pairwise.nil
  | cons x xs ih => exact insertDesc_pairwise x (pySortDesc xs) ih

theorem insertDesc_filter_key (x : SR) (l : List SR) (s : ℚ) :
    (insertDesc x l).filter (fun r => decide (rerankKey r = s)) =
      if rerankKey x = s then x :: l.filter (fun r => decide (rerankKey r = s))
      else l.filter (fun r => decide (rerankKey r = s)) := by
  induction l with
  | nil => by_cases h : rerankKey x = s <;> simp [insertDesc, h]
  | cons y ys ih =>
    rw [insertDesc]
    by_cases hlt : rerankKey x < rerankKey y
    · simp only [hlt, if_true]
      by_cases hx : rerankKey x = s
      · have hy : ¬ rerankKey y = s := by
          intro hy
          rw [hx, hy] at hlt
          exact lt_irrefl s hlt
        simp [List.filter_cons, hx, hy, ih]
      · by_cases hy : rerankKey y = s <;> simp [List.filter_cons, hx, hy, ih]
    · simp only [hlt, if_false]
      by_cases hx : rerankKey x = s
      · simp [List.filter_cons, hx]
      · simp [List.filter_cons, hx]

theorem pySortDesc_filter_key (l : List SR) (s : ℚ) :
    (pySortDesc l).filter (fun r => decide (rerankKey r = s)) =
      l.filter (fun r => decide (rerankKey r = s)) := by
  induction l with
  | nil => rfl
  | cons x xs ih =>
    have hstep : pySortDesc (x :: xs) = insertDesc x (pySortDesc xs) := rfl
    rw [hstep, insertDesc_filter_key]
    by_cases hx : rerankKey x = s <;> simp [List.filter_cons, hx, ih]

/-! ### Properties of deduplication -/

theorem dedupAux_sublist (hash : Chars → Chars) (seen : List Chars) (l : List SR) :
    (dedupAux hash seen l).Sublist l := by
  induction l generalizing seen with
  | nil => exact List.Sublist.refl _
  | cons r rest ih =>
    rw [dedupAux]
    by_cases h : hash r.content ∈ seen
    · simp only [h, if_true]
      exact (ih seen).cons r
    · simp only [h, if_false]
      exact (ih (hash r.content :: seen)).cons₂ r

theorem dedupAux_fresh (hash : Chars → Chars) (seen : List Chars) (l : List SR) :
    ∀ r ∈ dedupAux hash seen l, hash r.content ∉ seen := by
  induction l generalizing seen with
  | nil => simp [dedupAux]
  | cons r rest ih =>
    rw [dedupAux]
    by_cases h : hash r.content ∈ seen
    · simp only [h, if_true]
      exact ih seen
    · simp only [h, if_false]
      intro z hz
      rcases List.mem_cons.mp hz with rfl | hz
      · exact h
      · intro hzs
        exact ih (hash r.content :: seen) z hz (List.mem_cons_of_mem _ hzs)

theorem dedupAux_pairwise (hash : Chars → Chars) (seen : List Chars) (l : List SR) :
    (dedupAux hash seen l).Pairwise (fun a b => hash a.content ≠ hash b.content) := by
  induction l generalizing seen with
  | nil => exact List.Pairwise.nil
  | cons r rest ih =>
    rw [dedupAux]
    by_cases h : hash r.content ∈ seen
    · simp only [h, if_true]
      exact ih seen
    · simp only [h, if_false]
      refine List.pairwise_cons.mpr ⟨?_, ih _⟩
      intro z hz heq
      exact dedupAux_fresh hash _ rest z hz (by rw [← heq]; exact List.mem_cons_self _ _)

theorem dedupAux_of_fresh (hash : Chars → Chars) (seen : List Chars) (l : List SR)
    (hfresh : ∀ r ∈ l, hash r.content ∉ seen)
    (hpw : l.Pairwise (fun a b => hash a.content ≠ hash b.content)) :
    dedupAux hash seen l = l := by
  induction l generalizing seen with
  | nil => rfl
  | cons r rest ih =>
    rw [dedupAux]
    have h : hash r.content ∉ seen := hfresh r (List.mem_cons_self _ _)
    simp only [h, if_neg, if_false]
    rcases List.pairwise_cons.mp hpw with ⟨hr, hrest⟩
    rw [ih (hash r.content :: seen) ?_ hrest]
    intro z hz hmem
    rcases List.mem_cons.mp hmem with hzz | hzz
    · exact hr z hz hzz.symm
    · exact hfresh z (List.mem_cons_of_mem _ hz) hzz

theorem dedupAux_filter_key (hash : Chars → Chars) (seen : List Chars) (l : List SR) (k : Chars) :
    (dedupAux hash seen l).filter (fun r => decide (hash r.content = k)) =
      if k ∈ seen then []
      else (l.filter (fun r => decide (hash r.content = k))).take 1 := by
  induction l generalizing seen with
  | nil => simp [dedupAux]
  | cons r rest ih =>
    rw [dedupAux]
    by_cases h : hash r.content ∈ seen
    · simp only [h, if_true]
      rw [ih seen]
      by_cases hk : k ∈ seen
      · simp [hk]
      · have hrk : ¬ hash r.content = k := by
          intro he
          rw [he] at h
          exact hk h
        simp [hk, List.filter_cons, hrk]
    · simp only [h, if_false]
      by_cases hrk : hash r.content = k
      · subst hrk
        have hk : hash r.content ∉ seen := h
        rw [List.filter_cons]
        simp only [decide_True, if_true]
        rw [ih (hash r.content :: seen)]
        simp [hk, List.filter_cons]
      · rw [List.filter_cons]
        simp only [hrk, decide_False, if_false]
        rw [ih (hash r.content :: seen)]
        by_cases hk : k ∈ seen
        · simp [hk, List.mem_cons, hrk]
        · have : ¬ k ∈ hash r.content :: seen := by
            intro hmem
            rcases List.mem_cons.mp hmem with hzz | hzz
            · exact hrk hzz.symm
            · exact hk hzz
          simp [hk, this, List.filter_cons, hrk]

/-- C7 supporting fact: the output of deduplication has pairwise distinct
content hashes and every hash is new. -/
theorem deduplicate_results_pairwise (hash : Chars → Chars) (l : List SR) :
    (deduplicate_results hash l).Pairwise (fun a b => hash a.content ≠ hash b.content) :=
  dedupAux_pairwise hash [] l

theorem deduplicate_results_idem (hash : Chars → Chars) (l : List SR) :
    deduplicate_results hash (deduplicate_results hash l) = deduplicate_results hash l := by
  unfold deduplicate_results
  exact dedupAux_of_fresh hash [] _ (by simp) (dedupAux_pairwise hash [] l)

/-- C7: deduplication is idempotent, never returns more entries than given,
is order-preserving (the output is a sublist of the input), keeps exactly the
first-seen entry for each content hash, and its output has no two entries
with equal content hashes. -/
theorem dedupe_contract (hash : Chars → Chars) (l : List SR) :
    deduplicate_results hash (deduplicate_results hash l) = deduplicate_results hash l
    ∧ (deduplicate_results hash l).length ≤ l.length
    ∧ (deduplicate_results hash l).Sublist l
    ∧ (∀ k : Chars, (deduplicate_results hash l).filter (fun r => decide (hash r.content = k)) =
        (l.filter (fun r => decide (hash r.content = k))).take 1)
    ∧ (deduplicate_results hash l).Pairwise (fun a b => hash a.content ≠ hash b.content) := by
  refine ⟨deduplicate_results_idem hash l, ?_, dedupAux_sublist hash [] l, ?_, ?_⟩
  · exact (dedupAux_sublist hash [] l).length_le
  · intro k
    have := dedupAux_filter_key hash [] l k
    simpa [deduplicate_results] using this
  · exact dedupAux_pairwise hash [] l

/-! ### Rerank pipeline theorems -/

theorem zip_map_attach_eq_zipWith : ∀ (l1 : List SR) (l2 : List ℚ),
    (l1.zip l2).map (fun cs => attachScore cs.1 cs.2) = List.zipWith attachScore l1 l2
  | [], _ => by simp
  | _ :: _, [] => by simp
  | c :: l1, s :: l2 => by
    simp only [List.zip_cons_cons, List.map_cons, List.zipWith_cons_cons, List.cons.injEq,
      true_and]
    exact zip_map_attach_eq_zipWith l1 l2

theorem attach_final_eq_rerank (c : SR) (s : ℚ) :
    (attachScore c s).final_score = (attachScore c s).rerank_score := rfl

/-- C1: with reranking enabled and one reranker score per candidate,
`search_with_rerank` returns the zip-attached candidates (each with
`final_score = rerank_score` set to its reranker score), stably sorted in
descending `rerank_score` order (ties keep vector-stage order, expressed by
the per-key filter identity), with sub-threshold results removed and the
list truncated to `top_k`. -/
theorem search_with_rerank_contract (cfg : RerankConfig)
    (vecSearch : Nat → Except Chars (List SR))
    (reranker : Chars → List Chars → Except Chars (List ℚ))
    (query : Chars) (topK : Nat) (cands : List SR) (scores : List ℚ)
    (hE : cfg.enableRerank = true)
    (hv : vecSearch (min cfg.maxResults (max (topK * 2) 10)) = .ok cands)
    (hne : cands ≠ [])
    (hr : reranker query (cands.map (·.content)) = .ok scores)
    (hl : scores.length = cands.length) :
    let att := (cands.zip scores).map (fun cs => attachScore cs.1 cs.2)
    let out := ((pySortDesc att).filter
      (fun r => decide (cfg.scoreThreshold ≤ rerankKey r))).take topK
    search_with_rerank cfg vecSearch reranker query topK = .ok out
    ∧ att = List.zipWith attachScore cands scores
    ∧ att.length = cands.length
    ∧ List.Perm (pySortDesc att) att
    ∧ (pySortDesc att).Pairwise (fun a b => rerankKey b ≤ rerankKey a)
    ∧ out.Pairwise (fun a b => rerankKey b ≤ rerankKey a)
    ∧ (∀ s : ℚ, (pySortDesc att).filter (fun r => decide (rerankKey r = s)) =
        att.filter (fun r => decide (rerankKey r = s)))
    ∧ (∀ r ∈ out, r ∈ att ∧ cfg.scoreThreshold ≤ rerankKey r
        ∧ r.final_score = r.rerank_score)
    ∧ out.length ≤ topK := by
  intro att out
  have hcond' : ¬(cands = [] ∨ true = false) := by
    simp [hne]
  refine ⟨?_, zip_map_attach_eq_zipWith cands scores, ?_, pySortDesc_perm att,
    pySortDesc_pairwise att, ?_, fun s => pySortDesc_filter_key att s, ?_, ?_⟩
  · simp only [search_with_rerank, hE, if_true, hv, hr]
    rw [if_neg hcond']
  · show ((cands.zip scores).map (fun cs => attachScore cs.1 cs.2)).length = cands.length
    rw [zip_map_attach_eq_zipWith, List.length_zipWith, hl]
    exact Nat.min_self cands.length
  · exact ((pySortDesc_pairwise att).filter _).sublist (List.take_sublist _ _)
  · intro r hr'
    have hmemf : r ∈ (pySortDesc att).filter
        (fun r => decide (cfg.scoreThreshold ≤ rerankKey r)) :=
      List.mem_of_mem_take hr'
    rcases List.mem_filter.mp hmemf with ⟨hmem, hthr⟩
    have hmem' : r ∈ att := (pySortDesc_perm att).mem_iff.mp hmem
    refine ⟨hmem', of_decide_eq_true hthr, ?_⟩
    rcases List.mem_map.mp hmem' with ⟨cs, _, rfl⟩
    rfl
  · exact (List.length_take _ _).trans_le (Nat.min_le_left _ _)

def srA : SR := { content := "甲".data, file_path := "设定/a.md".data, distance := some 0 }
def srB : SR := { content := "乙".data, file_path := "Vol1/b.md".data, distance := some 0 }
def srC : SR := { content := "丙".data, file_path := "设定/人格图鉴.md".data, distance := some 0 }

/-- C1 witness: the contract applied at a concrete query with three
candidates, scores `[2, 0, 2]`, threshold `1` and `top_k = 2`. -/
theorem search_with_rerank_contract_witness :
    let cfg : RerankConfig := ⟨true, 10, 1⟩
    let cands := [srA, srB, srC]
    let scores : List ℚ := [2, 0, 2]
    let att := (cands.zip scores).map (fun cs => attachScore cs.1 cs.2)
    let out := ((pySortDesc att).filter
      (fun r => decide (cfg.scoreThreshold ≤ rerankKey r))).take 2
    search_with_rerank cfg (fun _ => .ok cands) (fun _ _ => .ok scores) "q".data 2 = .ok out
    ∧ att = List.zipWith attachScore cands scores
    ∧ att.length = cands.length
    ∧ List.Perm (pySortDesc att) att
    ∧ (pySortDesc att).Pairwise (fun a b => rerankKey b ≤ rerankKey a)
    ∧ out.Pairwise (fun a b => rerankKey b ≤ rerankKey a)
    ∧ (∀ s : ℚ, (pySortDesc att).filter (fun r => decide (rerankKey r = s)) =
        att.filter (fun r => decide (rerankKey r = s)))
    ∧ (∀ r ∈ out, r ∈ att ∧ (1 : ℚ) ≤ rerankKey r ∧ r.final_score = r.rerank_score)
    ∧ out.length ≤ 2 :=
  search_with_rerank_contract ⟨true, 10, 1⟩ (fun _ => .ok [srA, srB, srC])
    (fun _ _ => .ok [2, 0, 2]) "q".data 2 [srA, srB, srC] [2, 0, 2]
    rfl rfl (by decide) rfl rfl

/-- C2 counterexample: the reranker returns 1 score for 2 candidates, yet
`search_with_rerank` returns an ok result list (built from the zip of the
shorter prefix) instead of failing. -/
theorem rerank_mismatch_counterexample :
    ([(1 : ℚ)].length ≠ ([srA, srB] : List SR).length)
    ∧ search_with_rerank ⟨true, 10, 0⟩ (fun _ => .ok [srA, srB])
        (fun _ _ => .ok [1]) "q".data 5 = .ok [attachScore srA 1] := by
  constructor
  · decide
  · rfl

/-- C2 amended: on a score-count mismatch the search call does not raise; it
returns an ok list whose entries are drawn from the positional zip of
candidates with scores, hence at most `min(#candidates, #scores)` entries —
the shorter prefix — are ever paired. -/
theorem search_with_rerank_mismatch (cfg : RerankConfig)
    (vecSearch : Nat → Except Chars (List SR))
    (reranker : Chars → List Chars → Except Chars (List ℚ))
    (query : Chars) (topK : Nat) (cands : List SR) (scores : List ℚ)
    (hE : cfg.enableRerank = true)
    (hv : vecSearch (min cfg.maxResults (max (topK * 2) 10)) = .ok cands)
    (hne : cands ≠ [])
    (hr : reranker query (cands.map (·.content)) = .ok scores) :
    ∃ out : List SR,
      search_with_rerank cfg vecSearch reranker query topK = .ok out
      ∧ out.length ≤ min cands.length scores.length
      ∧ ∀ r ∈ out, r ∈ (cands.zip scores).map (fun cs => attachScore cs.1 cs.2) := by
  have hcond' : ¬(cands = [] ∨ true = false) := by
    simp [hne]
  refine ⟨_, by
    simp only [search_with_rerank, hE, if_true, hv, hr]
    rw [if_neg hcond'], ?_, ?_⟩
  · calc (((pySortDesc ((cands.zip scores).map (fun cs => attachScore cs.1 cs.2))).filter
          (fun r => decide (cfg.scoreThreshold ≤ rerankKey r))).take topK).length
        ≤ ((pySortDesc ((cands.zip scores).map (fun cs => attachScore cs.1 cs.2))).filter
          (fun r => decide (cfg.scoreThreshold ≤ rerankKey r))).length :=
          (List.take_sublist _ _).length_le
      _ ≤ (pySortDesc ((cands.zip scores).map (fun cs => attachScore cs.1 cs.2))).length :=
          List.length_filter_le _ _
      _ = ((cands.zip scores).map (fun cs => attachScore cs.1 cs.2)).length :=
          (pySortDesc_perm _).length_eq
      _ ≤ min cands.length scores.length := by
          rw [List.length_map, List.length_zip]
  · intro r hr'
    have hmemf := List.mem_of_mem_take hr'
    rcases List.mem_filter.mp hmemf with ⟨hmem, _⟩
    exact (pySortDesc_perm _).mem_iff.mp hmem

/-- C2 amended witness: the mismatch theorem applied at the concrete
mismatched input of the counterexample. -/
theorem search_with_rerank_mismatch_witness :
    ∃ out : List SR,
      search_with_rerank ⟨true, 10, 0⟩ (fun _ => .ok [srA, srB])
        (fun _ _ => .ok [1]) "q".data 5 = .ok out
      ∧ out.length ≤ min ([srA, srB] : List SR).length [(1 : ℚ)].length
      ∧ ∀ r ∈ out, r ∈ (([srA, srB] : List SR).zip [(1 : ℚ)]).map
          (fun cs => attachScore cs.1 cs.2) :=
  search_with_rerank_mismatch ⟨true, 10, 0⟩ (fun _ => .ok [srA, srB])
    (fun _ _ => .ok [1]) "q".data 5 [srA, srB] [1] rfl rfl (by decide) rfl

/-- C3 counterexample: `StoryRAGSystem.search` with a failing embedding
collaborator returns `[]`, the same value as a successful search with no
matches — the failure is masked, not propagated. -/
theorem story_search_masks_failure :
    story_search (fun _ => .error "embedding failure".data)
        (fun _ _ _ => .ok [srA]) "q".data 5 none = ([] : List SR)
    ∧ story_search (fun _ => .ok [1]) (fun _ _ _ => .ok []) "q".data 5 none = ([] : List SR) :=
  ⟨rfl, rfl⟩

/-- C3 amended: `BaseRAGSystem.search_with_rerank` propagates collaborator
failures (vector stage or reranker) as errors, but `StoryRAGSystem.search`
catches every exception and returns the empty list, so for the latter an
error outcome is indistinguishable from a legitimate zero-match result. -/
theorem search_failure_semantics :
    (∀ (e : Chars) (dbq : List ℚ → Nat → Option Chars → Except Chars (List SR))
        (q : Chars) (k : Nat) (ft : Option Chars),
      story_search (fun _ => .error e) dbq q k ft = ([] : List SR))
    ∧ (∀ (emb : List ℚ) (e : Chars) (q : Chars) (k : Nat) (ft : Option Chars),
      story_search (fun _ => .ok emb) (fun _ _ _ => .error e) q k ft = ([] : List SR))
    ∧ (∀ (cfg : RerankConfig) (rr : Chars → List Chars → Except Chars (List ℚ))
        (q : Chars) (k : Nat) (e : Chars),
      search_with_rerank cfg (fun _ => .error e) rr q k = .error e)
    ∧ (∀ (cfg : RerankConfig) (vec : Nat → Except Chars (List SR)) (q : Chars) (k : Nat)
        (e : Chars) (cands : List SR), cfg.enableRerank = true →
      vec (min cfg.maxResults (max (k * 2) 10)) = .ok cands → cands ≠ [] →
      search_with_rerank cfg vec (fun _ _ => .error e) q k = .error e) := by
  refine ⟨fun e dbq q k ft => rfl, fun emb e q k ft => rfl, fun cfg rr q k e => ?_, ?_⟩
  · simp [search_with_rerank]
  · intro cfg vec q k e cands hE hv hne
    have hcond' : ¬(cands = [] ∨ true = false) := by
      simp [hne]
    simp only [search_with_rerank, hE, if_true, hv]
    rw [if_neg hcond']

/-- C3 amended witness: reranker failure at a concrete query propagates as
an error out of `search_with_rerank`. -/
theorem search_failure_semantics_witness :
    search_with_rerank ⟨true, 10, 0⟩ (fun _ => .ok [srA])
      (fun _ _ => .error "reranker failure".data) "q".data 5
      = .error "reranker failure".data :=
  search_failure_semantics.2.2.2 ⟨true, 10, 0⟩ (fun _ => .ok [srA]) "q".data 5
    "reranker failure".data [srA] rfl rfl (by decide)

/-! ### ChunkID theorems -/

/-- C5 counterexample: two triples differing in every component feed the
identical concatenated key `"a_1_2_b"` into the hash, so the generated
identifiers coincide (shown for a concrete hash; the key equality makes this
hold for every hash function). -/
theorem chunk_id_collision :
    chunkKey "a".data 1 "2_b".data = chunkKey "a_1".data 2 "b".data
    ∧ ¬("a".data = "a_1".data ∧ (1 : Nat) = 2 ∧ "2_b".data = "b".data)
    ∧ generate_chunk_id idHash "a".data 1 "2_b".data
      = generate_chunk_id idHash "a_1".data 2 "b".data := by
  exact ⟨by decide, by decide, by decide⟩

/-- C5 amended: the chunk-ID generator is a pure function of the hashed key
`"{file_path}_{index}_{title}"`, and changing exactly one of the three
inputs (the other two fixed) changes that key — so identifiers then differ
whenever the hash does not collide on the two keys; but distinct triples
that differ in several components can produce the identical key and hence
the identical identifier. -/
theorem chunk_id_contract (hash : Chars → Chars) (fp fp' : Chars) (idx idx' : Nat)
    (t t' : Chars) :
    (generate_chunk_id hash fp idx t = hash (chunkKey fp idx t))
    ∧ (chunkKey fp idx t = chunkKey fp' idx' t' →
        generate_chunk_id hash fp idx t = generate_chunk_id hash fp' idx' t')
    ∧ (t ≠ t' → chunkKey fp idx t ≠ chunkKey fp idx t')
    ∧ (idx ≠ idx' → chunkKey fp idx t ≠ chunkKey fp idx' t)
    ∧ (fp ≠ fp' → chunkKey fp idx t ≠ chunkKey fp' idx t) := by
  refine ⟨rfl, ?_, chunkKey_title_ne fp idx, chunkKey_idx_ne fp t, chunkKey_fp_ne idx t⟩
  intro h
  unfold generate_chunk_id
  rw [h]

/-- C5 amended witness: the contract applied at concrete triples. -/
theorem chunk_id_contract_witness :
    (generate_chunk_id idHash "a".data 3 "t".data = idHash (chunkKey "a".data 3 "t".data))
    ∧ (chunkKey "a".data 3 "t".data = chunkKey "b".data 4 "u".data →
        generate_chunk_id idHash "a".data 3 "t".data
          = generate_chunk_id idHash "b".data 4 "u".data)
    ∧ ("t".data ≠ "u".data → chunkKey "a".data 3 "t".data ≠ chunkKey "a".data 3 "u".data)
    ∧ ((3 : Nat) ≠ 4 → chunkKey "a".data 3 "t".data ≠ chunkKey "a".data 4 "t".data)
    ∧ ("a".data ≠ "b".data → chunkKey "a".data 3 "t".data ≠ chunkKey "b".data 3 "t".data) :=
  chunk_id_contract idHash "a".data "b".data 3 4 "t".data "u".data

/-! ### Character search theorems -/

theorem flatMapL_length_three (f : Chars → List Chars) (l : List Chars)
    (hf : ∀ a, (f a).length = 3) : (flatMapL f l).length = 3 * l.length := by
  induction l with
  | nil => simp [flatMapL]
  | cons a l ih =>
    rw [flatMapL]
    rw [List.length_append, hf a, ih]
    simp only [List.length_cons]
    omega

/-- C8: for an entity name mapped to 5 aliases, variant-expanded character
search issues exactly `5 × 3 = 15` sub-queries; the concatenated results are
deduplicated (no two survivors share a content hash), then stably
partitioned with compendium-tagged (`人格图鉴` in `file_path`) hits first,
and the final list is truncated to `top_k`. -/
theorem search_character_contract (srch : Chars → Nat → Option Chars → List SR)
    (hash : Chars → Chars) (name : Chars) (topK : Nat)
    (h5 : (get_character_variants name).length = 5) :
    let u := deduplicate_results hash
      (flatMapL (fun q => srch q 3 (some "设定".data)) (charQueries name))
    let fin := u.filter compendiumHit ++ u.filter (fun r => !compendiumHit r)
    (charQueries name).length = 15
    ∧ search_character srch hash true name topK = fin.take topK
    ∧ List.Perm fin u
    ∧ u.Pairwise (fun a b => hash a.content ≠ hash b.content)
    ∧ fin.Pairwise (fun a b => compendiumHit b = true → compendiumHit a = true)
    ∧ (search_character srch hash true name topK).length ≤ topK := by
  intro u fin
  have hq : (charQueries name).length = 15 := by
    have h3 := flatMapL_length_three
      (fun v => [v ++ " 人格设定 性格特点".data, v ++ " 能力 出场".data, v ++ " 对话风格 台词".data])
      (get_character_variants name) (fun a => rfl)
    unfold charQueries
    rw [h3, h5]
  have hdef : search_character srch hash true name topK = fin.take topK := rfl
  have hperm : List.Perm fin u := by
    have := List.filter_append_perm compendiumHit u
    exact this
  refine ⟨hq, hdef, hperm, deduplicate_results_pairwise hash _, ?_, ?_⟩
  · rw [List.pairwise_append]
    refine ⟨?_, ?_, ?_⟩
    · apply List.pairwise_of_forall_mem_list
      intro a ha b _ _
      exact (List.mem_filter.mp ha).2
    · apply List.pairwise_of_forall_mem_list
      intro a _ b hb hb'
      exfalso
      have hbneg := (List.mem_filter.mp hb).2
      rw [hb'] at hbneg
      simp at hbneg
    · intro a ha b _ _
      exact (List.mem_filter.mp ha).2
  · rw [hdef]
    exact (List.length_take _ _).trans_le (Nat.min_le_left _ _)

/-- C8 witness: the contract applied to the five-alias entity `小一` with a
concrete two-result search collaborator and `top_k = 2`. -/
theorem search_character_contract_witness :
    let srch : Chars → Nat → Option Chars → List SR := fun _ _ _ => [srB, srC]
    let u := deduplicate_results idHash
      (flatMapL (fun q => srch q 3 (some "设定".data)) (charQueries "小一".data))
    let fin := u.filter compendiumHit ++ u.filter (fun r => !compendiumHit r)
    (charQueries "小一".data).length = 15
    ∧ search_character srch idHash true "小一".data 2 = fin.take 2
    ∧ List.Perm fin u
    ∧ u.Pairwise (fun a b => idHash a.content ≠ idHash b.content)
    ∧ fin.Pairwise (fun a b => compendiumHit b = true → compendiumHit a = true)
    ∧ (search_character srch idHash true "小一".data 2).length ≤ 2 :=
  search_character_contract (fun _ _ _ => [srB, srC]) idHash "小一".data 2 (by decide)

/-! ### Hierarchical section chunking (`BaseRAGSystem.chunk_by_section`)

A line is a header when its stripped form matches the anchored pattern of
2 to 6 hashes, at least one whitespace character, and a non-empty title. -/

structure MHeader where
  line : Nat
  level : Nat
  title : Chars
deriving DecidableEq

/-- `re.match(r'^(#{2,6})\s+(.+)$', line.strip())`, returning the level and
the stripped title group. -/
def headerOf (line : Chars) : Option (Nat × Chars) :=
  let s := pyStrip line
  let run := (s.takeWhile (fun c => c == '#')).length
  if 2 ≤ run ∧ run ≤ 6 then
    match s.drop run with
    | c :: _ => if isWS c then some (run, (s.drop run).dropWhile isWS) else none
    | [] => none
  else none

/-- The header-scan loop of `chunk_by_section`: record `(line, level, title)`
for every header line, `i` being the running line index. -/
def findHeadersAux (i : Nat) : List Chars → List MHeader
  | [] => []
  | l :: rest =>
    match headerOf l with
    | some (lv, t) => { line := i, level := lv, title := t } :: findHeadersAux (i + 1) rest
    | none => findHeadersAux (i + 1) rest

/-- The end-of-section scan: the line of the next header of level `≤ lvl`,
or the end of the document `n`. -/
def findNext (lvl n : Nat) : List MHeader → Nat
  | [] => n
  | h :: t => if h.level ≤ lvl then h.line else findNext lvl n t

structure SecChunk where
  content : Chars
  file_path : Chars
  chunk_type : Chars
  section_title : Chars
  section_level : Nat
  chunk_index : Nat
  start_line : Nat
  end_line : Nat
  chunk_id : Chars
deriving DecidableEq

/-- `'\n'.join(lines[s:e]).strip()`. -/
def secSlice (lines : List Chars) (s e : Nat) : Chars :=
  pyStrip (joinNL ((lines.drop s).take (e - s)))

/-- The per-header loop of `chunk_by_section`; `cnt` is `len(chunks)` so
far, `n` is `len(lines)`. -/
def sectionChunksAux (hash : Chars → Chars) (fp : Chars) (lines : List Chars) (n : Nat) :
    Nat → List MHeader → List SecChunk
  | _, [] => []
  | cnt, h :: rest =>
    let e := findNext h.level n rest
    let body := secSlice lines h.line e
    if body ≠ [] ∧ 20 < body.length then
      { content := body, file_path := fp, chunk_type := "section".data,
        section_title := h.title, section_level := h.level, chunk_index := cnt,
        start_line := h.line + 1, end_line := e,
        chunk_id := hash (chunkKey fp cnt h.title) } :: sectionChunksAux hash fp lines n (cnt + 1) rest
    else sectionChunksAux hash fp lines n cnt rest

/-- `BaseRAGSystem._create_single_chunk`; the document-level chunk carries
no `section_level` key, marked by level `0` here. -/
def create_single_chunk (hash : Chars → Chars) (fp content ctype : Chars) : List SecChunk :=
  if pyStrip content = [] then []
  else [{ content := pyStrip content, file_path := fp, chunk_type := ctype,
          section_title := ctype, section_level := 0, chunk_index := 0,
          start_line := 1, end_line := (pyLines content).length,
          chunk_id := hash (chunkKey fp 0 ctype) }]

/-- `BaseRAGSystem.chunk_by_section`. -/
def chunk_by_section (hash : Chars → Chars) (fp content : Chars) : List SecChunk :=
  if findHeadersAux 0 (pyLines content) = [] then
    create_single_chunk hash fp content "document".data
  else
    sectionChunksAux hash fp (pyLines content) (pyLines content).length 0
      (findHeadersAux 0 (pyLines content))

/-! ### Paragraph chunking (`BaseRAGSystem.chunk_by_paragraph`) -/

/-- The lookahead `(?=#{1,3}\s)` of the section-splitting pattern: the text
after a newline starts with 1 to 3 hashes followed by a whitespace. -/
def secBoundary (cs : Chars) : Bool :=
  let r := (cs.takeWhile (fun c => c == '#')).length
  decide (1 ≤ r) && decide (r ≤ 3) &&
    (match cs.drop r with
     | c :: _ => isWS c
     | [] => false)

/-- `re.split(r'\n(?=#{1,3}\s)', content)`: cut before every header line,
consuming the newline. -/
def splitSecAux (acc : Chars) : Chars → List Chars
  | [] => [acc.reverse]
  | c :: rest =>
    if c = '\n' ∧ secBoundary rest then acc.reverse :: splitSecAux [] rest
    else splitSecAux (c :: acc) rest

def pySplitSections (content : Chars) : List Chars := splitSecAux [] content

/-- Index of the last newline of a list, if any. -/
def lastNLIdx : Chars → Option Nat
  | [] => none
  | c :: rest =>
    match lastNLIdx rest with
    | some p => some (p + 1)
    | none => if c = '\n' then some 0 else none

/-- After a first `\n`, the greedy match of `\s*\n`: the number of
characters it consumes, if it matches. -/
def paraSep (rest : Chars) : Option Nat :=
  match lastNLIdx (rest.takeWhile isWS) with
  | some p => some (p + 1)
  | none => none

/-- `re.split(r'\n\s*\n', section)`, driven by structural fuel so that the
kernel can evaluate it. -/
def splitParaAux : Nat → Chars → Chars → List Chars
  | 0, acc, _ => [acc.reverse]
  | _ + 1, acc, [] => [acc.reverse]
  | fuel + 1, acc, c :: rest =>
    if c = '\n' then
      match paraSep rest with
      | some k => acc.reverse :: splitParaAux fuel [] (rest.drop k)
      | none => splitParaAux fuel (c :: acc) rest
    else splitParaAux fuel (c :: acc) rest

def pySplitParas (s : Chars) : List Chars := splitParaAux s.length [] s

def takeNonNL (l : Chars) : Chars := l.takeWhile (fun c => c != '\n')

/-- Largest index holding a character other than `'\n'`, if any. -/
def lastNonNLIdx : Chars → Option Nat
  | [] => none
  | c :: rest =>
    match lastNonNLIdx rest with
    | some p => some (p + 1)
    | none => if c ≠ '\n' then some 0 else none

/-- `re.match(r'^(#{1,3})\s*(.+)', section)` group 2, with the regex
backtracking: greedy hashes, then the greedy whitespace run backed off to
the last position from which `.+` can match at least one non-newline
character; if nothing works after `min(run,3)` hashes, the hash group backs
off by one and `.+` consumes from the freed `#`. -/
def pyTitle (s : Chars) : Option Chars :=
  let run := (s.takeWhile (fun c => c == '#')).length
  if run = 0 then none
  else
    let j := min run 3
    let t := s.drop j
    let k := (t.takeWhile isWS).length
    if k < t.length then some (takeNonNL (t.drop k))
    else
      match lastNonNLIdx t with
      | some m => some (takeNonNL (t.drop m))
      | none => if 2 ≤ j then some ['#'] else none

/-- Python `s[-k:]` for `k = context_chars` (with the `[-0:]` quirk). -/
def pyLastChars (k : Nat) (s : Chars) : Chars :=
  if k = 0 then s else s.drop (s.length - k)

/-- `BaseRAGSystem._add_context`: prepend up to `context_chars` trailing
characters of the previous paragraph and append up to `context_chars`
leading characters of the next one, honouring the `add_context`
configuration switch. -/
def addContextF (addCtx : Bool) (ctxChars : Nat) (mainPara : Chars)
    (allParas : List Chars) (pidx : Nat) : Chars :=
  if addCtx = false then pyStrip mainPara
  else
    let r0 := pyStrip mainPara
    let r1 :=
      if 0 < pidx then
        let prev := pyStrip (allParas.getD (pidx - 1) [])
        if prev ≠ [] then
          "[上文]...".data ++
            (if ctxChars < prev.length then pyLastChars ctxChars prev else prev) ++
            '\n' :: '\n' :: r0
        else r0
      else r0
    if pidx < allParas.length - 1 then
      let nxt := pyStrip (allParas.getD (pidx + 1) [])
      if nxt ≠ [] then
        r1 ++ '\n' :: '\n' :: "[下文]".data ++
          (if ctxChars < nxt.length then nxt.take ctxChars else nxt) ++ "...".data
      else r1
    else r1

structure ParaChunk where
  content : Chars
  file_path : Chars
  chunk_type : Chars
  section_title : Chars
  paragraph_index : Nat
  chunk_index : Nat
  start_line : Nat
  end_line : Nat
  chunk_id : Chars
deriving DecidableEq

/-- The inner paragraph loop of `chunk_by_paragraph`: `pidx` is
`para_idx`, `pstart` is `para_start_line`; short paragraphs advance the
line counter, surviving ones emit a chunk with the raw paragraph's line
span and the context-enhanced content. -/
def paraLoop (hash : Chars → Chars) (fp : Chars) (minSize : Nat) (addCtx : Bool) (ctxChars : Nat)
    (title : Chars) (sidx : Nat) (allParas : List Chars) :
    Nat → Nat → List Chars → List ParaChunk
  | _, _, [] => []
  | pidx, pstart, p :: rest =>
    if (pyStrip p).length < minSize then
      paraLoop hash fp minSize addCtx ctxChars title sidx allParas
        (pidx + 1) (pstart + countNL p + 2) rest
    else
      { content := addContextF addCtx ctxChars p allParas pidx,
        file_path := fp, chunk_type := "paragraph".data, section_title := title,
        paragraph_index := pidx, chunk_index := sidx * 100 + pidx,
        start_line := pstart, end_line := pstart + countNL p,
        chunk_id := hash (chunkKey fp (sidx * 100 + pidx)
          (title ++ "_para".data ++ pyNatStr pidx)) } ::
        paraLoop hash fp minSize addCtx ctxChars title sidx allParas
          (pidx + 1) (pstart + countNL p + 2) rest

/-- The outer section loop of `chunk_by_paragraph`: `sidx` is
`section_idx`, `curLine` is `current_line`; blank sections only advance the
counter. -/
def secLoop (hash : Chars → Chars) (fp : Chars) (minSize : Nat) (addCtx : Bool) (ctxChars : Nat) :
    Nat → Nat → List Chars → List ParaChunk
  | _, _, [] => []
  | sidx, curLine, s :: rest =>
    if pyStrip s = [] then
      secLoop hash fp minSize addCtx ctxChars (sidx + 1) (curLine + countNL s + 1) rest
    else
      let title := (pyTitle s).getD ("Section ".data ++ pyNatStr (sidx + 1))
      let paras := pySplitParas s
      paraLoop hash fp minSize addCtx ctxChars title sidx paras 0 curLine paras ++
        secLoop hash fp minSize addCtx ctxChars (sidx + 1) (curLine + countNL s + 1) rest

/-- `BaseRAGSystem.chunk_by_paragraph`; `minSize` is the
`min_chunk_size`, `addCtx`/`ctxChars` the `add_context`/`context_chars`
configuration. -/
def chunk_by_paragraph (hash : Chars → Chars) (fp : Chars) (minSize : Nat) (addCtx : Bool)
    (ctxChars : Nat) (content : Chars) : List ParaChunk :=
  secLoop hash fp minSize addCtx ctxChars 0 1 (pySplitSections content)

/-- The raw-paragraph line spans of `chunk_by_paragraph`: the surviving
paragraphs of one section with their start lines. -/
def paraSpansLoop (minSize : Nat) : Nat → List Chars → List (Chars × Nat)
  | _, [] => []
  | pstart, p :: rest =>
    if (pyStrip p).length < minSize then paraSpansLoop minSize (pstart + countNL p + 2) rest
    else (p, pstart) :: paraSpansLoop minSize (pstart + countNL p + 2) rest

def secSpans (minSize : Nat) : Nat → List Chars → List (Chars × Nat)
  | _, [] => []
  | curLine, s :: rest =>
    if pyStrip s = [] then secSpans minSize (curLine + countNL s + 1) rest
    else paraSpansLoop minSize curLine (pySplitParas s) ++
      secSpans minSize (curLine + countNL s + 1) rest

/-- The raw core paragraph of each emitted chunk together with its start
line, in emission order. -/
def paraSpans (minSize : Nat) (content : Chars) : List (Chars × Nat) :=
  secSpans minSize 1 (pySplitSections content)

/-! ### Flat two-level section chunking (`StoryRAGSystem.chunk_by_section`) -/

structure SChunk where
  content : Chars
  file_path : Chars
  chunk_type : Chars
  section_title : Chars
  chunk_index : Nat
  start_line : Nat
  end_line : Nat
  chunk_id : Chars
deriving DecidableEq

/-- `line.startswith('## ') and not line.startswith('### ')`. -/
def isL2 (line : Chars) : Bool :=
  leadsWith "## ".data line && !leadsWith "### ".data line

structure SState where
  chunks : List SChunk
  cur : Option Chars
  secLines : List Chars
  secStart : Nat
deriving DecidableEq

/-- Saving the accumulated section as a chunk with `end_line = endL`, under
the truthiness tests of the Python code (`current_section` non-empty, some
section lines, non-empty stripped content). -/
def storyFlush (hash : Chars → Chars) (fp : Chars) (st : SState) (endL : Nat) : List SChunk :=
  match st.cur with
  | some t =>
    if t ≠ [] ∧ st.secLines ≠ [] then
      let c := pyStrip (joinNL st.secLines)
      if c ≠ [] then
        let ck : SChunk :=
          { content := c, file_path := fp, chunk_type := "section".data,
            section_title := t, chunk_index := st.chunks.length,
            start_line := st.secStart + 1, end_line := endL,
            chunk_id := hash (chunkKey fp st.chunks.length t) }
        st.chunks ++ [ck]
      else st.chunks
    else st.chunks
  | none => st.chunks

/-- The line loop of `StoryRAGSystem.chunk_by_section`: a `## ` line closes
the previous section and opens a new one; other lines accumulate only once
a section is open. -/
def storyLoop (hash : Chars → Chars) (fp : Chars) : Nat → SState → List Chars → SState
  | _, st, [] => st
  | i, st, line :: rest =>
    if isL2 line then
      storyLoop hash fp (i + 1)
        { chunks := storyFlush hash fp st i, cur := some (pyStrip (line.drop 3)),
          secLines := [line], secStart := i } rest
    else
      storyLoop hash fp (i + 1)
        (match st.cur with
         | some _ => { st with secLines := st.secLines ++ [line] }
         | none => st) rest

/-- `StoryRAGSystem.chunk_by_section`. -/
def story_chunk_by_section (hash : Chars → Chars) (fp content : Chars) : List SChunk :=
  storyFlush hash fp
    (storyLoop hash fp 0 { chunks := [], cur := none, secLines := [], secStart := 0 }
      (pyLines content))
    (pyLines content).length

/-! ### Flat two-level chunking theorems -/

theorem storyLoop_no_l2 (hash : Chars → Chars) (fp : Chars) :
    ∀ (rest : List Chars) (i : Nat) (st : SState), (∀ l ∈ rest, isL2 l = false) →
      st.cur = none → storyLoop hash fp i st rest = st := by
  intro rest
  induction rest with
  | nil => intro i st _ _; rfl
  | cons line rest' ih =>
    intro i st hall hcur
    rw [storyLoop]
    have hl2 : isL2 line = false := hall line (List.mem_cons_self _ _)
    rw [hl2]
    simp only [Bool.false_eq_true, if_false]
    rw [hcur]
    exact ih (i + 1) st (fun l hl => hall l (List.mem_cons_of_mem _ hl)) hcur

theorem storyFlush_start_bound (hash : Chars → Chars) (fp : Chars) (st : SState)
    (endL m : Nat) (hch : ∀ c ∈ st.chunks, m ≤ c.start_line)
    (hcur : ∀ t, st.cur = some t → m ≤ st.secStart + 1) :
    ∀ c ∈ storyFlush hash fp st endL, m ≤ c.start_line := by
  intro c hcmem
  unfold storyFlush at hcmem
  rcases hcase : st.cur with _ | t
  · simp only [hcase] at hcmem
    exact hch c hcmem
  · simp only [hcase] at hcmem
    by_cases ht : t ≠ [] ∧ st.secLines ≠ []
    · rw [if_pos ht] at hcmem
      by_cases hne : pyStrip (joinNL st.secLines) ≠ []
      · rw [if_pos hne] at hcmem
        simp only [List.mem_append, List.mem_singleton] at hcmem
        rcases hcmem with h | rfl
        · exact hch c h
        · exact hcur t hcase
      · rw [if_neg hne] at hcmem
        exact hch c hcmem
    · rw [if_neg ht] at hcmem
      exact hch c hcmem

theorem storyLoop_spec (hash : Chars → Chars) (fp : Chars) (m : Nat) :
    ∀ (rest : List Chars) (i : Nat) (st : SState),
      (∀ c ∈ st.chunks, m ≤ c.start_line) →
      (∀ t, st.cur = some t → m ≤ st.secStart + 1) →
      (∀ j (hj : j < rest.length), isL2 (rest.get ⟨j, hj⟩) = true → m ≤ i + j + 1) →
      (∀ c ∈ (storyLoop hash fp i st rest).chunks, m ≤ c.start_line)
      ∧ (∀ t, (storyLoop hash fp i st rest).cur = some t →
          m ≤ (storyLoop hash fp i st rest).secStart + 1) := by
  intro rest
  induction rest with
  | nil => intro i st hch hcur _; exact ⟨hch, hcur⟩
  | cons line rest' ih =>
    intro i st hch hcur hl2
    rw [storyLoop]
    by_cases hline : isL2 line = true
    · rw [hline]
      simp only [if_true]
      apply ih (i + 1)
      · exact storyFlush_start_bound hash fp st i m hch hcur
      · intro t _
        have := hl2 0 (by simp) (by simpa using hline)
        simpa using this
      · intro j hj hjl2
        have := hl2 (j + 1) (by simpa using Nat.succ_lt_succ hj) (by simpa using hjl2)
        omega
    · have hl2f : isL2 line = false := by simpa using hline
      rw [hl2f]
      simp only [Bool.false_eq_true, if_false]
      have hshift : ∀ j (hj : j < rest'.length), isL2 (rest'.get ⟨j, hj⟩) = true →
          m ≤ (i + 1) + j + 1 := by
        intro j hj hjl2
        have := hl2 (j + 1) (by simpa using Nat.succ_lt_succ hj) (by simpa using hjl2)
        omega
      rcases hcase : st.cur with _ | t
      · simp only [hcase]
        exact ih (i + 1) st hch hcur hshift
      · simp only [hcase]
        refine ih (i + 1) _ hch ?_ hshift
        intro t' _
        exact hcur t hcase

/-- C10: in the flat two-level mode, if every line strictly before position
`i0` is not a `## ` header then every emitted chunk starts at a 1-based
line `≥ i0 + 1` (so text before the first level-2 header is in no chunk),
and a document with no `## ` line at all yields the empty chunk list. -/
theorem story_section_contract (hash : Chars → Chars) (fp content : Chars) (i0 : Nat)
    (hpre : ∀ j (hj : j < (pyLines content).length), j < i0 →
      isL2 ((pyLines content).get ⟨j, hj⟩) = false) :
    ((∀ l ∈ pyLines content, isL2 l = false) → story_chunk_by_section hash fp content = [])
    ∧ (∀ c ∈ story_chunk_by_section hash fp content, i0 + 1 ≤ c.start_line) := by
  constructor
  · intro hnone
    unfold story_chunk_by_section
    rw [storyLoop_no_l2 hash fp (pyLines content) 0 _ hnone rfl]
    rfl
  · intro c hc
    unfold story_chunk_by_section at hc
    have hloop := storyLoop_spec hash fp (i0 + 1) (pyLines content) 0
      { chunks := [], cur := none, secLines := [], secStart := 0 }
      (by simp) (by simp) ?_
    · exact storyFlush_start_bound hash fp _ (pyLines content).length (i0 + 1)
        hloop.1 hloop.2 c hc
    · intro j hj hjl2
      have : ¬ j < i0 := by
        intro hlt
        rw [hpre j hj hlt] at hjl2
        cases hjl2
      omega

/-- C10 witness: a document whose pre-header text is excluded (every chunk
starts at or after the first `## ` line, line 2), and a headerless document
chunking to the empty list. -/
theorem story_section_contract_witness :
    let doc := "pre text\n## A\nbody\n### sub\nmore\n## B\nbody2".data
    let doc' := "no headers here\njust text".data
    (∀ c ∈ story_chunk_by_section idHash "f".data doc, 1 + 1 ≤ c.start_line)
    ∧ story_chunk_by_section idHash "f".data doc' = [] := by
  intro doc doc'
  constructor
  · exact (story_section_contract idHash "f".data doc 1 (by decide)).2
  · exact (story_section_contract idHash "f".data doc' 0
      (by intro j hj h; omega)).1 (by decide)

/-! ### Chunk index monotonicity -/

theorem sectionChunksAux_idx_ge (hash : Chars → Chars) (fp : Chars) (lines : List Chars)
    (n : Nat) : ∀ (hs : List MHeader) (cnt : Nat),
    ∀ c ∈ sectionChunksAux hash fp lines n cnt hs, cnt ≤ c.chunk_index := by
  intro hs
  induction hs with
  | nil => intro cnt c hc; cases hc
  | cons h rest ih =>
    intro cnt c hc
    rw [sectionChunksAux] at hc
    by_cases hcond : secSlice lines h.line (findNext h.level n rest) ≠ [] ∧
        20 < (secSlice lines h.line (findNext h.level n rest)).length
    · rw [if_pos hcond] at hc
      rcases List.mem_cons.mp hc with rfl | hc
      · exact Nat.le_refl _
      · exact Nat.le_of_succ_le (ih (cnt + 1) c hc)
    · rw [if_neg hcond] at hc
      exact ih cnt c hc

theorem sectionChunksAux_idx_pairwise (hash : Chars → Chars) (fp : Chars) (lines : List Chars)
    (n : Nat) : ∀ (hs : List MHeader) (cnt : Nat),
    ((sectionChunksAux hash fp lines n cnt hs).map (·.chunk_index)).Pairwise (· < ·) := by
  intro hs
  induction hs with
  | nil => intro cnt; exact List.Pairwise.nil
  | cons h rest ih =>
    intro cnt
    rw [sectionChunksAux]
    by_cases hcond : secSlice lines h.line (findNext h.level n rest) ≠ [] ∧
        20 < (secSlice lines h.line (findNext h.level n rest)).length
    · rw [if_pos hcond]
      rw [List.map_cons]
      refine List.pairwise_cons.mpr ⟨?_, ih (cnt + 1)⟩
      intro x hx
      rcases List.mem_map.mp hx with ⟨c, hc, rfl⟩
      have := sectionChunksAux_idx_ge hash fp lines n rest (cnt + 1) c hc
      dsimp only
      omega
    · rw [if_neg hcond]
      exact ih cnt

theorem paraLoop_idx (hash : Chars → Chars) (fp : Chars) (minSize : Nat) (addCtx : Bool)
    (ctxChars : Nat) (title : Chars) (sidx : Nat) (allParas : List Chars) :
    ∀ (paras : List Chars) (pidx pstart : Nat),
    (∀ c ∈ paraLoop hash fp minSize addCtx ctxChars title sidx allParas pidx pstart paras,
      sidx * 100 + pidx ≤ c.chunk_index ∧ c.chunk_index = sidx * 100 + c.paragraph_index)
    ∧ ((paraLoop hash fp minSize addCtx ctxChars title sidx allParas pidx pstart paras).map
        (·.chunk_index)).Pairwise (· < ·) := by
  intro paras
  induction paras with
  | nil => intro pidx pstart; exact ⟨fun c hc => absurd hc (List.not_mem_nil c), List.Pairwise.nil⟩
  | cons p rest ih =>
    intro pidx pstart
    rw [paraLoop]
    by_cases hshort : (pyStrip p).length < minSize
    · rw [if_pos hshort]
      refine ⟨fun c hc => ?_, (ih (pidx + 1) _).2⟩
      have := (ih (pidx + 1) (pstart + countNL p + 2)).1 c hc
      omega
    · rw [if_neg hshort]
      constructor
      · intro c hc
        rcases List.mem_cons.mp hc with rfl | hc
        · exact ⟨Nat.le_refl _, rfl⟩
        · have := (ih (pidx + 1) (pstart + countNL p + 2)).1 c hc
          omega
      · rw [List.map_cons]
        refine List.pairwise_cons.mpr ⟨?_, (ih (pidx + 1) _).2⟩
        intro x hx
        rcases List.mem_map.mp hx with ⟨c, hc, rfl⟩
        have := (ih (pidx + 1) (pstart + countNL p + 2)).1 c hc
        dsimp only
        omega

theorem secLoop_idx_ge (hash : Chars → Chars) (fp : Chars) (minSize : Nat) (addCtx : Bool)
    (ctxChars : Nat) : ∀ (secs : List Chars) (sidx curLine : Nat),
    ∀ c ∈ secLoop hash fp minSize addCtx ctxChars sidx curLine secs,
      sidx * 100 ≤ c.chunk_index := by
  intro secs
  induction secs with
  | nil => intro sidx curLine c hc; cases hc
  | cons sct rest ih =>
    intro sidx curLine c hc
    rw [secLoop] at hc
    by_cases hblank : pyStrip sct = []
    · rw [if_pos hblank] at hc
      have := ih (sidx + 1) (curLine + countNL sct + 1) c hc
      omega
    · rw [if_neg hblank] at hc
      rcases List.mem_append.mp hc with h | h
      · have := (paraLoop_idx hash fp minSize addCtx ctxChars _ sidx _ (pySplitParas sct)
          0 curLine).1 c h
        omega
      · have := ih (sidx + 1) (curLine + countNL sct + 1) c h
        omega

theorem secLoop_idx_pairwise (hash : Chars → Chars) (fp : Chars) (minSize : Nat) (addCtx : Bool)
    (ctxChars : Nat) : ∀ (secs : List Chars) (sidx curLine : Nat),
    (∀ c ∈ secLoop hash fp minSize addCtx ctxChars sidx curLine secs, c.paragraph_index < 100) →
    ((secLoop hash fp minSize addCtx ctxChars sidx curLine secs).map
      (·.chunk_index)).Pairwise (· < ·) := by
  intro secs
  induction secs with
  | nil => intro sidx curLine _; exact List.Pairwise.nil
  | cons sct rest ih =>
    intro sidx curLine hbound
    rw [secLoop]
    rw [secLoop] at hbound
    by_cases hblank : pyStrip sct = []
    · rw [if_pos hblank]
      rw [if_pos hblank] at hbound
      exact ih (sidx + 1) (curLine + countNL sct + 1) hbound
    · rw [if_neg hblank]
      rw [if_neg hblank] at hbound
      rw [List.map_append, List.pairwise_append]
      refine ⟨(paraLoop_idx hash fp minSize addCtx ctxChars _ sidx _ _ 0 curLine).2,
        ih (sidx + 1) _ (fun c hc => hbound c (List.mem_append_right _ hc)), ?_⟩
      intro x hx y hy
      rcases List.mem_map.mp hx with ⟨a, ha, rfl⟩
      rcases List.mem_map.mp hy with ⟨b, hb, rfl⟩
      have hA := (paraLoop_idx hash fp minSize addCtx ctxChars _ sidx _ _ 0 curLine).1 a ha
      have haP : a.paragraph_index < 100 := hbound a (List.mem_append_left _ ha)
      have hB := secLoop_idx_ge hash fp minSize addCtx ctxChars rest (sidx + 1) _ b hb
      omega

/-- C6 counterexample: a document whose first section holds 101 surviving
paragraphs followed by a second section; the emitted `chunk_index` sequence
ends `..., 99, 100, 100`, which is neither strictly increasing nor
duplicate-free. -/
def manyParas : Nat → Chars
  | 0 => "xx".data
  | n + 1 => "xx".data ++ '\n' :: '\n' :: manyParas n

theorem chunk_index_collision :
    let doc := manyParas 100 ++ "\n# T\nyy".data
    let idxs := (chunk_by_paragraph idHash "f".data 1 false 200 doc).map (·.chunk_index)
    ¬ idxs.Pairwise (· < ·) ∧ ¬ idxs.Nodup := by
  constructor
  · decide
  · decide

/-- C6 amended: `chunk_index` values are pairwise distinct and strictly
increasing in emission order for `by_section` unconditionally, and for
`by_paragraph` provided every emitted chunk has `paragraph_index < 100`
(a section with 100 or more surviving paragraphs breaks the
`section_index * 100 + paragraph_index` scheme). -/
theorem chunk_index_monotone (hash : Chars → Chars) (fp : Chars) (minSize : Nat)
    (addCtx : Bool) (ctxChars : Nat) (content : Chars) :
    ((chunk_by_section hash fp content).map (·.chunk_index)).Pairwise (· < ·)
    ∧ ((∀ c ∈ chunk_by_paragraph hash fp minSize addCtx ctxChars content,
          c.paragraph_index < 100) →
        ((chunk_by_paragraph hash fp minSize addCtx ctxChars content).map
          (·.chunk_index)).Pairwise (· < ·)) := by
  constructor
  · unfold chunk_by_section
    by_cases hh : findHeadersAux 0 (pyLines content) = []
    · rw [if_pos hh]
      unfold create_single_chunk
      by_cases hs : pyStrip content = []
      · rw [if_pos hs]; exact List.Pairwise.nil
      · rw [if_neg hs]; simp
    · rw [if_neg hh]
      exact sectionChunksAux_idx_pairwise hash fp _ _ _ 0
  · intro hbound
    exact secLoop_idx_pairwise hash fp minSize addCtx ctxChars _ 0 1 hbound

/-- C6 amended witness: both strategies on a concrete document with fewer
than 100 paragraphs per section, the paragraph-index bound discharged by
evaluation. -/
theorem chunk_index_monotone_witness :
    let doc := "## Alpha\ncontent long enough to pass twenty chars\n## Beta\nalso content long enough to pass twenty".data
    ((chunk_by_section idHash "f".data doc).map (·.chunk_index)).Pairwise (· < ·)
    ∧ ((chunk_by_paragraph idHash "f".data 50 true 200 doc).map
        (·.chunk_index)).Pairwise (· < ·) := by
  intro doc
  exact ⟨(chunk_index_monotone idHash "f".data 50 true 200 doc).1,
    (chunk_index_monotone idHash "f".data 50 true 200 doc).2 (by decide)⟩

/-! ### Context enrichment frame property -/

/-- Everything in a paragraph chunk except its `content`: metadata fields
and chunk id. -/
def metaOfPara (c : ParaChunk) : Chars × Chars × Chars × Nat × Nat × Nat × Nat × Chars :=
  (c.file_path, c.chunk_type, c.section_title, c.paragraph_index, c.chunk_index,
    c.start_line, c.end_line, c.chunk_id)

theorem paraLoop_meta (hash : Chars → Chars) (fp : Chars) (minSize : Nat)
    (ctxChars ctxChars' : Nat) (title : Chars) (sidx : Nat) (allParas : List Chars) :
    ∀ (paras : List Chars) (pidx pstart : Nat),
    (paraLoop hash fp minSize true ctxChars title sidx allParas pidx pstart paras).map metaOfPara
      = (paraLoop hash fp minSize false ctxChars' title sidx allParas pidx pstart paras).map
          metaOfPara := by
  intro paras
  induction paras with
  | nil => intro pidx pstart; rfl
  | cons p rest ih =>
    intro pidx pstart
    rw [paraLoop, paraLoop]
    by_cases hshort : (pyStrip p).length < minSize
    · rw [if_pos hshort, if_pos hshort]
      exact ih (pidx + 1) (pstart + countNL p + 2)
    · rw [if_neg hshort, if_neg hshort]
      rw [List.map_cons, List.map_cons, ih (pidx + 1) (pstart + countNL p + 2)]
      rfl

theorem secLoop_meta (hash : Chars → Chars) (fp : Chars) (minSize : Nat)
    (ctxChars ctxChars' : Nat) :
    ∀ (secs : List Chars) (sidx curLine : Nat),
    (secLoop hash fp minSize true ctxChars sidx curLine secs).map metaOfPara
      = (secLoop hash fp minSize false ctxChars' sidx curLine secs).map metaOfPara := by
  intro secs
  induction secs with
  | nil => intro sidx curLine; rfl
  | cons sct rest ih =>
    intro sidx curLine
    rw [secLoop, secLoop]
    by_cases hblank : pyStrip sct = []
    · rw [if_pos hblank, if_pos hblank]
      exact ih (sidx + 1) (curLine + countNL sct + 1)
    · rw [if_neg hblank, if_neg hblank]
      rw [List.map_append, List.map_append,
        paraLoop_meta hash fp minSize ctxChars ctxChars' _ sidx _ _ 0 curLine,
        ih (sidx + 1) (curLine + countNL sct + 1)]

theorem paraLoop_spans (hash : Chars → Chars) (fp : Chars) (minSize : Nat) (addCtx : Bool)
    (ctxChars : Nat) (title : Chars) (sidx : Nat) (allParas : List Chars) :
    ∀ (paras : List Chars) (pidx pstart : Nat),
    (paraLoop hash fp minSize addCtx ctxChars title sidx allParas pidx pstart paras).map
        (fun c => (c.start_line, c.end_line))
      = (paraSpansLoop minSize pstart paras).map (fun ps => (ps.2, ps.2 + countNL ps.1)) := by
  intro paras
  induction paras with
  | nil => intro pidx pstart; rfl
  | cons p rest ih =>
    intro pidx pstart
    rw [paraLoop, paraSpansLoop]
    by_cases hshort : (pyStrip p).length < minSize
    · rw [if_pos hshort, if_pos hshort]
      exact ih (pidx + 1) (pstart + countNL p + 2)
    · rw [if_neg hshort, if_neg hshort]
      rw [List.map_cons, List.map_cons, ih (pidx + 1) (pstart + countNL p + 2)]

theorem secLoop_spans (hash : Chars → Chars) (fp : Chars) (minSize : Nat) (addCtx : Bool)
    (ctxChars : Nat) :
    ∀ (secs : List Chars) (sidx curLine : Nat),
    (secLoop hash fp minSize addCtx ctxChars sidx curLine secs).map
        (fun c => (c.start_line, c.end_line))
      = (secSpans minSize curLine secs).map (fun ps => (ps.2, ps.2 + countNL ps.1)) := by
  intro secs
  induction secs with
  | nil => intro sidx curLine; rfl
  | cons sct rest ih =>
    intro sidx curLine
    rw [secLoop, secSpans]
    by_cases hblank : pyStrip sct = []
    · rw [if_pos hblank, if_pos hblank]
      exact ih (sidx + 1) (curLine + countNL sct + 1)
    · rw [if_neg hblank, if_neg hblank]
      rw [List.map_append, List.map_append,
        paraLoop_spans hash fp minSize addCtx ctxChars _ sidx _ _ 0 curLine,
        ih (sidx + 1) (curLine + countNL sct + 1)]

/-- C9: context enrichment only changes `content` — running
`chunk_by_paragraph` with `add_context` on (any `context_chars`) and off
yields chunks with identical metadata and chunk ids; and for either setting
the line ranges come from the raw core paragraphs:
`(start_line, end_line) = (span start, span start + newline count of the
raw paragraph)`. -/
theorem context_enrichment_frame (hash : Chars → Chars) (fp : Chars) (minSize : Nat)
    (ctxChars ctxChars' : Nat) (content : Chars) :
    ((chunk_by_paragraph hash fp minSize true ctxChars content).map metaOfPara
      = (chunk_by_paragraph hash fp minSize false ctxChars' content).map metaOfPara)
    ∧ (∀ (addCtx : Bool) (ctx : Nat),
        (chunk_by_paragraph hash fp minSize addCtx ctx content).map
          (fun c => (c.start_line, c.end_line))
        = (paraSpans minSize content).map (fun ps => (ps.2, ps.2 + countNL ps.1))) := by
  constructor
  · exact secLoop_meta hash fp minSize ctxChars ctxChars' _ 0 1
  · intro addCtx ctx
    exact secLoop_spans hash fp minSize addCtx ctx _ 0 1

/-! ### Section partition property -/

/-- The half-open 0-based line ranges of section chunks:
`start_line` is 1-based inclusive, `end_line` 1-based inclusive is the same
as 0-based exclusive. -/
def secRanges (cs : List SecChunk) : List (Nat × Nat) :=
  cs.map (fun c => (c.start_line - 1, c.end_line))

/-- The ranges, taken in order, exactly tile `[lo, hi)`: the first starts at
`lo`, each range ends where the next starts (no gap, no overlap), and the
last ends at `hi`. -/
def chainCoversB (lo hi : Nat) : List (Nat × Nat) → Bool
  | [] => lo == hi
  | (s, e) :: rest => s == lo && decide (lo ≤ e) && chainCoversB e hi rest

def firstHeaderLine : List MHeader → Nat
  | [] => 0
  | h :: _ => h.line

/-- All headers of the document share one level (no nesting). -/
def sameLevelB : List MHeader → Bool
  | [] => true
  | [_] => true
  | h :: h' :: t => h.level == h'.level && sameLevelB (h' :: t)

/-- Every section body passes the emission test of `chunk_by_section`
(non-empty and longer than 20 characters after trimming). -/
def allLongB (lines : List Chars) (n : Nat) : List MHeader → Bool
  | [] => true
  | h :: rest =>
    (decide (secSlice lines h.line (findNext h.level n rest) ≠ []) &&
      decide (20 < (secSlice lines h.line (findNext h.level n rest)).length)) &&
      allLongB lines n rest

theorem findHeadersAux_bounds : ∀ (ls : List Chars) (i : Nat),
    ∀ h ∈ findHeadersAux i ls, i ≤ h.line ∧ h.line < i + ls.length := by
  intro ls
  induction ls with
  | nil => intro i h hh; cases hh
  | cons l rest ih =>
    intro i h hh
    rw [findHeadersAux] at hh
    match hmatch : headerOf l with
    | some (lv, t) =>
      rw [hmatch] at hh
      rcases List.mem_cons.mp hh with rfl | hh
      · exact ⟨Nat.le_refl _, by simp⟩
      · have := ih (i + 1) h hh
        constructor
        · omega
        · simp only [List.length_cons]
          omega
    | none =>
      rw [hmatch] at hh
      have := ih (i + 1) h hh
      constructor
      · omega
      · simp only [List.length_cons]
        omega

theorem findHeadersAux_sorted : ∀ (ls : List Chars) (i : Nat),
    (findHeadersAux i ls).Pairwise (fun a b => a.line < b.line) := by
  intro ls
  induction ls with
  | nil => intro i; exact List.Pairwise.nil
  | cons l rest ih =>
    intro i
    rw [findHeadersAux]
    match hmatch : headerOf l with
    | some (lv, t) =>
      refine List.pairwise_cons.mpr ⟨?_, ih (i + 1)⟩
      intro b hb
      have := (findHeadersAux_bounds rest (i + 1) b hb).1
      simp only
      omega
    | none => exact ih (i + 1)

theorem sectionChunksAux_covers (hash : Chars → Chars) (fp : Chars) (lines : List Chars) :
    ∀ (hs : List MHeader) (cnt : Nat), hs ≠ [] →
      sameLevelB hs = true →
      allLongB lines lines.length hs = true →
      hs.Pairwise (fun a b => a.line < b.line) →
      (∀ h ∈ hs, h.line < lines.length) →
      chainCoversB (firstHeaderLine hs) lines.length
        (secRanges (sectionChunksAux hash fp lines lines.length cnt hs)) = true := by
  intro hs
  induction hs with
  | nil => intro cnt hne; exact absurd rfl hne
  | cons h rest ih =>
    intro cnt _ hlvl hlong hsorted hbnd
    rw [allLongB, Bool.and_eq_true, Bool.and_eq_true, decide_eq_true_eq,
      decide_eq_true_eq] at hlong
    rw [sectionChunksAux, if_pos ⟨hlong.1.1, hlong.1.2⟩]
    rw [secRanges, List.map_cons]
    match rest with
    | [] =>
      have hend : findNext h.level lines.length ([] : List MHeader) = lines.length := rfl
      rw [chainCoversB]
      have hlt : h.line < lines.length := hbnd h (List.mem_cons_self _ _)
      simp only [hend]
      rw [Bool.and_eq_true, Bool.and_eq_true]
      refine ⟨⟨?_, ?_⟩, ?_⟩
      · simp [firstHeaderLine]
      · simp only [firstHeaderLine]
        exact decide_eq_true_eq.mpr (by omega)
      · show chainCoversB lines.length lines.length (secRanges
          (sectionChunksAux hash fp lines lines.length (cnt + 1) [])) = true
        simp [sectionChunksAux, secRanges, chainCoversB]
    | h' :: t =>
      have hlv : h'.level ≤ h.level := by
        rw [sameLevelB, Bool.and_eq_true, beq_iff_eq] at hlvl
        omega
      have hend : findNext h.level lines.length (h' :: t) = h'.line := by
        rw [findNext, if_pos hlv]
      rw [chainCoversB]
      rcases List.pairwise_cons.mp hsorted with ⟨hlt, hsorted'⟩
      simp only [hend]
      rw [Bool.and_eq_true, Bool.and_eq_true]
      refine ⟨⟨?_, ?_⟩, ?_⟩
      · simp [firstHeaderLine]
      · simp only [firstHeaderLine]
        exact decide_eq_true_eq.mpr (Nat.le_of_lt (hlt h' (List.mem_cons_self _ _)))
      · have := ih (cnt + 1) (by simp)
          (by rw [sameLevelB, Bool.and_eq_true] at hlvl; exact hlvl.2)
          hlong.2 hsorted'
          (fun x hx => hbnd x (List.mem_cons_of_mem _ hx))
        simpa [firstHeaderLine, secRanges] using this

/-- C4 counterexample: a document with a nested level-3 header and a short
final section.  The level-2 chunk `A` spans lines `[0,4)` and its nested
level-3 chunk `B` spans `[2,4)` (overlap), while the short section `C`
(lines `[4,6)`) is dropped (gap): the ranges do not partition the region
from the first header to the end. -/
theorem by_section_partition_counterexample :
    let doc := "## A\naaaaaaaaaaaaaaaaaaaaaaaaa\n### B\nbbbbbbbbbbbbbbbbbbbbbbbbb\n## C\ntiny".data
    findHeadersAux 0 (pyLines doc) ≠ []
    ∧ secRanges (chunk_by_section idHash "f".data doc) = [(0, 4), (2, 4)]
    ∧ (pyLines doc).length = 6
    ∧ chainCoversB (firstHeaderLine (findHeadersAux 0 (pyLines doc))) (pyLines doc).length
        (secRanges (chunk_by_section idHash "f".data doc)) = false := by
  exact ⟨by decide, by decide, by decide, by decide⟩

/-- C4 amended: for a document whose headers (levels 2 to 6) all share one
level and whose every section body passes the 20-character emission test,
the chunk line ranges, taken in order, exactly partition the region from
the first header line to the end of the document — no gaps, no overlaps.
With nested header levels the ranges of a section and its sub-sections
overlap, and sections dropped by the length filter leave gaps. -/
theorem by_section_partition (hash : Chars → Chars) (fp content : Chars)
    (hne : findHeadersAux 0 (pyLines content) ≠ [])
    (hlvl : sameLevelB (findHeadersAux 0 (pyLines content)) = true)
    (hlong : allLongB (pyLines content) (pyLines content).length
      (findHeadersAux 0 (pyLines content)) = true) :
    chainCoversB (firstHeaderLine (findHeadersAux 0 (pyLines content)))
      (pyLines content).length (secRanges (chunk_by_section hash fp content)) = true := by
  unfold chunk_by_section
  rw [if_neg hne]
  exact sectionChunksAux_covers hash fp (pyLines content) (findHeadersAux 0 (pyLines content))
    0 hne hlvl hlong (findHeadersAux_sorted (pyLines content) 0)
    (fun h hh => by simpa using (findHeadersAux_bounds (pyLines content) 0 h hh).2)

/-- C4 amended witness: the partition theorem applied to a two-section
single-level document. -/
theorem by_section_partition_witness :
    let doc := "## Alpha\ncontent long enough to pass twenty chars\n## Beta\nalso content long enough to pass twenty".data
    chainCoversB (firstHeaderLine (findHeadersAux 0 (pyLines doc))) (pyLines doc).length
      (secRanges (chunk_by_section idHash "f".data doc)) = true := by
  intro doc
  exact by_section_partition idHash "f".data doc (by decide) (by decide) (by decide)
